import Mathlib

/-!
Verification of core behaviors of the Ren-C interpreter sources.

Each section shallowly embeds one routine of the C sources as executable
Lean definitions and proves properties about it:

* integer math verbs        -- src/src/core/t-integer.c, REBTYPE(Integer)
* date scanning             -- src/src/core/l-types.c, Scan_Date
* path normalization        -- src/extensions/filesystem/mod-filesystem.c
* REDUCE                    -- src/src/core/n-reduce.c
* value comparison          -- src/src/core/f-series.c, Cmp_Value
* protect / freeze          -- src/src/core/n-protect.c
* action argument fulfillment -- src/src/core/evaluator/c-action.c

Machine integers are modelled as Int with explicit two's-complement
wrapping where the C code can overflow.  C `%` and `/` on signed ints
(truncate toward zero) are modelled by Int.tmod / Int.tdiv.
-/

/-! # Integer math verbs (t-integer.c) -/

/-- Smallest 64-bit signed integer (INT64_MIN). -/
def int64Min : Int := -(2 ^ 63)

/-- Largest 64-bit signed integer (INT64_MAX). -/
def int64Max : Int := 2 ^ 63 - 1

/-- The value fits in a signed 64-bit integer. -/
def FitsI64 (n : Int) : Prop := int64Min ≤ n ∧ n ≤ int64Max

instance (n : Int) : Decidable (FitsI64 n) := by unfold FitsI64; infer_instance

/-- Two's-complement wrap of an integer into the signed 64-bit range. -/
def wrap64 (n : Int) : Int := (n + 2 ^ 63) % 2 ^ 64 - 2 ^ 63

/-- Overflow-detecting 64-bit addition, as the REB_I64_ADD_OF helper used by
REBTYPE(Integer) in t-integer.c: the wrapped sum plus a flag that is true
exactly when the infinite-precision sum does not fit in 64 bits. -/
def REB_I64_ADD_OF (a b : Int) : Int × Bool :=
  (wrap64 (a + b), wrap64 (a + b) != a + b)

/-- Overflow-detecting 64-bit subtraction (REB_I64_SUB_OF). -/
def REB_I64_SUB_OF (a b : Int) : Int × Bool :=
  (wrap64 (a - b), wrap64 (a - b) != a - b)

/-- Overflow-detecting 64-bit multiplication (REB_I64_MUL_OF). -/
def REB_I64_MUL_OF (a b : Int) : Int × Bool :=
  (wrap64 (a * b), wrap64 (a * b) != a * b)

/-- The math verbs dispatched by REBTYPE(Integer) that the spec discusses. -/
inductive IntVerb
  | add
  | subtract
  | multiply
  | divide
  | power
  | remainder
deriving DecidableEq, Repr

/-- Outcome of an integer math verb: an INTEGER! result, a delegation to
T_Decimal after promoting both operands to decimal, or a raised error. -/
inductive IntVerbResult
  | int (n : Int)
  | promoteDecimal (a b : Int)
  | overflowError
  | zeroDivideError
deriving DecidableEq, Repr

/-- The math-verb cases of the switch in REBTYPE(Integer) (t-integer.c),
for two INTEGER! operands `num` and `arg`:

* ADD / SUBTRACT / MULTIPLY use the overflow-detecting 64-bit helpers and
  raise `overflow` when the flag comes back set;
* DIVIDE checks `arg == 0` (zero-divide), then the `INT64_MIN / -1` case
  (overflow), then evenness `num % arg == 0` (exact quotient); otherwise it
  falls through to the POWER case;
* POWER initializes both D_ARGs as decimal and delegates to T_Decimal;
* REMAINDER checks `arg == 0`, then computes `(arg != -1) ? (num % arg) : 0`.
-/
def REBTYPE_Integer (verb : IntVerb) (num arg : Int) : IntVerbResult :=
  match verb with
  | .add =>
      let r := REB_I64_ADD_OF num arg
      if r.2 then .overflowError else .int r.1
  | .subtract =>
      let r := REB_I64_SUB_OF num arg
      if r.2 then .overflowError else .int r.1
  | .multiply =>
      let r := REB_I64_MUL_OF num arg
      if r.2 then .overflowError else .int r.1
  | .divide =>
      if arg = 0 then .zeroDivideError
      else if num = int64Min ∧ arg = -1 then .overflowError
      else if Int.tmod num arg = 0 then .int (Int.tdiv num arg)
      else .promoteDecimal num arg
  | .power => .promoteDecimal num arg
  | .remainder =>
      if arg = 0 then .zeroDivideError
      else .int (if arg ≠ -1 then Int.tmod num arg else 0)

theorem wrap64_eq_self_iff (n : Int) : wrap64 n = n ↔ FitsI64 n := by
  unfold wrap64 FitsI64 int64Min int64Max
  omega

/-- C2 (counterexample): the claim says DIVIDE returns the exact integer
quotient whenever the divisor divides the dividend evenly, but at
num = INT64_MIN, arg = -1 the divisor divides evenly and REBTYPE(Integer)
raises `overflow` instead of returning the quotient. -/
theorem REBTYPE_Integer_divide_even_counterexample :
    ((-1 : Int) ∣ int64Min)
      ∧ REBTYPE_Integer .divide int64Min (-1) = .overflowError
      ∧ REBTYPE_Integer .divide int64Min (-1) ≠ .int (int64Min / (-1)) := by
  refine ⟨⟨2 ^ 63, by norm_num [int64Min]⟩, by decide, by decide⟩

/-- C2 (amended): for 64-bit operands, ADD, SUBTRACT and MULTIPLY return the
exact sum/difference/product when it fits in signed 64 bits and raise
`overflow` otherwise; DIVIDE raises `zero-divide` on divisor 0, raises
`overflow` on INT64_MIN / -1, returns the exact quotient when the divisor
divides the dividend evenly, and promotes both operands to decimal
otherwise; POWER always promotes to decimal. -/
theorem REBTYPE_Integer_math_spec (num arg : Int)
    (hn : FitsI64 num) (ha : FitsI64 arg) :
    (REBTYPE_Integer .add num arg =
      if FitsI64 (num + arg) then .int (num + arg) else .overflowError)
    ∧ (REBTYPE_Integer .subtract num arg =
      if FitsI64 (num - arg) then .int (num - arg) else .overflowError)
    ∧ (REBTYPE_Integer .multiply num arg =
      if FitsI64 (num * arg) then .int (num * arg) else .overflowError)
    ∧ (REBTYPE_Integer .divide num arg =
      if arg = 0 then .zeroDivideError
      else if num = int64Min ∧ arg = -1 then .overflowError
      else if arg ∣ num then .int (num / arg)
      else .promoteDecimal num arg)
    ∧ REBTYPE_Integer .power num arg = .promoteDecimal num arg := by
  refine ⟨?_, ?_, ?_, ?_, rfl⟩
  · by_cases h : FitsI64 (num + arg)
    · simp [REBTYPE_Integer, REB_I64_ADD_OF, (wrap64_eq_self_iff _).mpr h, h]
    · have hne : wrap64 (num + arg) ≠ num + arg :=
        fun he => h ((wrap64_eq_self_iff _).mp he)
      simp [REBTYPE_Integer, REB_I64_ADD_OF, h, hne]
  · by_cases h : FitsI64 (num - arg)
    · simp [REBTYPE_Integer, REB_I64_SUB_OF, (wrap64_eq_self_iff _).mpr h, h]
    · have hne : wrap64 (num - arg) ≠ num - arg :=
        fun he => h ((wrap64_eq_self_iff _).mp he)
      simp [REBTYPE_Integer, REB_I64_SUB_OF, h, hne]
  · by_cases h : FitsI64 (num * arg)
    · simp [REBTYPE_Integer, REB_I64_MUL_OF, (wrap64_eq_self_iff _).mpr h, h]
    · have hne : wrap64 (num * arg) ≠ num * arg :=
        fun he => h ((wrap64_eq_self_iff _).mp he)
      simp [REBTYPE_Integer, REB_I64_MUL_OF, h, hne]
  · by_cases h0 : arg = 0
    · simp [REBTYPE_Integer, h0]
    · by_cases hmin : num = int64Min ∧ arg = -1
      · simp [REBTYPE_Integer, h0, hmin]
      · by_cases hdvd : arg ∣ num
        · have ht : Int.tmod num arg = 0 := Int.tmod_eq_zero_of_dvd hdvd
          have hq : Int.tdiv num arg = num / arg := Int.tdiv_eq_ediv_of_dvd hdvd
          simp [REBTYPE_Integer, h0, hmin, ht, hq, hdvd]
        · have ht : Int.tmod num arg ≠ 0 :=
            fun h => hdvd (Int.dvd_of_tmod_eq_zero h)
          simp [REBTYPE_Integer, h0, hmin, ht, hdvd]

/-- Witness for the amended C2 theorem at num = 10, arg = 4 (uneven divide,
which promotes to decimal). -/
theorem REBTYPE_Integer_math_spec_witness :
    REBTYPE_Integer .divide 10 4 = .promoteDecimal 10 4 := by
  have h := (REBTYPE_Integer_math_spec 10 4 (by decide) (by decide)).2.2.2.1
  rw [h]
  norm_num [int64Min]

/-- C10: REMAINDER of any 64-bit integer by -1 is special-cased to return
INTEGER! 0 without performing the machine-level modulo, so it is
well-defined even at INT64_MIN, where the direct 64-bit division that a
plain `%` entails would overflow (the quotient 2^63 does not fit). -/
theorem REBTYPE_Integer_remainder_neg_one :
    (∀ n : Int, REBTYPE_Integer .remainder n (-1) = .int 0)
      ∧ REBTYPE_Integer .remainder int64Min (-1) = .int 0
      ∧ ¬ FitsI64 (Int.tdiv int64Min (-1)) := by
  refine ⟨fun n => by simp [REBTYPE_Integer], by simp [REBTYPE_Integer], by decide⟩

/-! # Date scanning (l-types.c, Scan_Date) -/

/-- Modelled from the spec: the MAX_YEAR constant used by Scan_Date's range
check is declared outside the provided sources; the customary Ren-C bound
for DATE! years is 0x3fff. -/
def MAX_YEAR : Nat := 0x3fff

/-- Modelled from the spec: the Month_Max_Days table used by Scan_Date is
defined outside the provided sources.  The spec's date grammar with
Gregorian validation implies the standard month lengths, February listed
with 29 days so that the explicit leap-year check decides February 29. -/
def Month_Max_Days : List Nat := [31, 29, 31, 30, 31, 30, 31, 31, 30, 31, 30, 31]

/-- The day/month/year validation performed by Scan_Date (l-types.c): the
range test `year > MAX_YEAR || day < 1 || day > Month_Max_Days[month-1]`
followed by the February-29 leap-year/century test.  Scan_Date reaches
this check only with nonnegative numeric fields (Grab_Int refuses a minus
sign), so Nat models the C ints faithfully here. -/
def Scan_Date_valid_ymd (year month day : Nat) : Bool :=
  if year > MAX_YEAR ∨ day < 1 ∨ day > Month_Max_Days.getD (month - 1) 0 then
    false
  else if month = 2 ∧ day = 29 then
    if year % 4 ≠ 0 ∨ (year % 100 = 0 ∧ year % 400 ≠ 0) then false else true
  else true

/-- C8 (counterexample): the year 16384 satisfies the Gregorian leap rule
(divisible by 4, not by 100), yet Scan_Date's range check rejects
29-Feb-16384 because year > MAX_YEAR — so acceptance of a February-29
token is not equivalent to the leap rule alone. -/
theorem Scan_Date_feb29_counterexample :
    (16384 % 4 = 0 ∧ (16384 % 100 = 0 → 16384 % 400 = 0))
      ∧ Scan_Date_valid_ymd 16384 2 29 = false :=
  ⟨by decide, by decide⟩

/-- C8 (amended): a date token with month February and day 29 passes
Scan_Date's validation if and only if the year is within the scanner's
range (year ≤ MAX_YEAR) and satisfies the Gregorian leap rule: divisible
by 4, and when divisible by 100 also divisible by 400; 29-Feb of any
other year — non-leap or beyond MAX_YEAR — fails. -/
theorem Scan_Date_feb29_gregorian (year : Nat) :
    Scan_Date_valid_ymd year 2 29 = true ↔
      (year ≤ MAX_YEAR ∧ year % 4 = 0 ∧ (year % 100 = 0 → year % 400 = 0)) := by
  have hday : Month_Max_Days.getD (2 - 1) 0 = 29 := rfl
  unfold Scan_Date_valid_ymd
  rw [hday]
  unfold MAX_YEAR
  by_cases hy : year ≤ 16383
  · have hb : ¬ (year > 16383 ∨ 29 < 1 ∨ 29 > 29) := by omega
    rw [if_neg hb, if_pos ⟨rfl, rfl⟩]
    by_cases hcond : year % 4 ≠ 0 ∨ (year % 100 = 0 ∧ year % 400 ≠ 0)
    · rw [if_pos hcond]
      simp only [Bool.false_eq_true, false_iff]
      omega
    · rw [if_neg hcond]
      have hp : year % 4 = 0 ∧ (year % 100 = 0 → year % 400 = 0) := by omega
      constructor
      · intro _
        exact ⟨hy, hp⟩
      · intro _
        rfl
  · have hb : (year > 16383 ∨ 29 < 1 ∨ 29 > 29) := by omega
    rw [if_pos hb]
    simp only [Bool.false_eq_true, false_iff]
    exact fun h => hy h.1

/-! # Path normalization (mod-filesystem.c)

POSIX build modelled: OS_DIR_SEP is the forward slash.  Strings are lists
of codepoints, matching the NEXT_CHR walk over UTF-8 in the C code. -/

/-- Result of the scanning loop of To_REBOL_Path: a finished mold, a restart
request (a colon was seen with no leading slash emitted yet), or the
failure raised when a colon follows an earlier colon or slash. -/
inductive ToRebolOutcome
  | ok (out : List Char)
  | restart
  | err
deriving DecidableEq, Repr

/-- The character loop of To_REBOL_Path (mod-filesystem.c).  A colon is only
legal before any other colon or slash; with the leading slash already
emitted it is replaced by a slash, one following slash or backslash is
skipped, and the character after that is copied unchanged by the shared
append at the bottom of the loop (when the colon ends the input, the
colon itself reaches that append).  Slash and backslash collapse onto a
single slash unless the mold already ends in one.  Everything else is
copied. -/
def To_REBOL_Path_loop (leadSlash sawColon sawSlash : Bool)
    (out : List Char) : List Char → ToRebolOutcome
  | [] => .ok out
  | c :: rest =>
    if c = ':' then
      if sawColon ∨ sawSlash then .err
      else if ¬ leadSlash then .restart
      else
        match rest with
        | [] => .ok (out ++ ['/', ':'])
        | c1 :: rest1 =>
          if c1 = '\\' ∨ c1 = '/' then
            match rest1 with
            | [] => .ok (out ++ ['/'])
            | c2 :: rest2 =>
              To_REBOL_Path_loop leadSlash true sawSlash (out ++ ['/', c2]) rest2
          else To_REBOL_Path_loop leadSlash true sawSlash (out ++ ['/', c1]) rest1
    else if c = '\\' ∨ c = '/' then
      if out.getLast? = some '/' then
        To_REBOL_Path_loop leadSlash sawColon sawSlash out rest
      else To_REBOL_Path_loop leadSlash sawColon true (out ++ ['/']) rest
    else To_REBOL_Path_loop leadSlash sawColon sawSlash (out ++ [c]) rest

/-- To_REBOL_Path (mod-filesystem.c): run the loop; if it requests a restart
(first colon with no leading slash yet), rerun over the whole input with a
slash pre-seeded in the mold.  With PATH_OPT_SRC_IS_DIR a terminal slash
is ensured. -/
def To_REBOL_Path (srcIsDir : Bool) (s : List Char) : Option (List Char) :=
  let finish : List Char → List Char := fun out =>
    if srcIsDir then (if out.getLast? = some '/' then out else out ++ ['/'])
    else out
  match To_REBOL_Path_loop false false false [] s with
  | .ok out => some (finish out)
  | .err => none
  | .restart =>
    match To_REBOL_Path_loop true false false ['/'] s with
    | .ok out => some (finish out)
    | _ => none

/-- Helper of the `..` handling in Mold_File_To_Local: index scan that walks
backward from byte position m looking for the previous OS_DIR_SEP,
stopping at the mold base. -/
def Mold_File_pop_scan (out : List Char) : Nat → Nat
  | 0 => 0
  | m + 1 => if out.getD (m + 1) ' ' = '/' then m + 1 else Mold_File_pop_scan out m

/-- The `..` truncation of Mold_File_To_Local: drop the terminal slash, then
scan back to the previous slash (or the mold base) and truncate there,
trimming one path segment off the mold buffer.  An empty mold is left
alone (the caller then appends the separator). -/
def Mold_File_pop (out : List Char) : List Char :=
  match out.length with
  | 0 => out
  | 1 => []
  | n + 2 => out.take (Mold_File_pop_scan out n)

/-- State of the segment scanner of Mold_File_To_Local.  `start` is the top
of the outer `for` loop (just after a separator was emitted, or at the
very beginning); `copy` is the inner segment_loop that copies characters;
`dot1` / `dot2` record that one / two leading dots of a segment have been
consumed under the FULL flag and are pending classification. -/
inductive SegState
  | start
  | copy
  | dot1
  | dot2
deriving DecidableEq, Repr

/-- The segment-scanning loop of Mold_File_To_Local (mod-filesystem.c),
one consumed character per step.  Only under the FULL flag and at segment
start is a leading `.` given special treatment: a lone `.` or `./` is
dropped, `..` truncates one emitted segment and re-emits the separator,
and `.x` / `..x` file names fall back to the plain copy with the dots
emitted.  The copy loop appends characters, collapsing a separator onto
a mold that already ends in one. -/
def MoldLoop (full : Bool) (st : SegState) (out : List Char) :
    List Char → List Char
  | [] =>
    match st with
    | .dot1 => out
    | .dot2 => Mold_File_pop out ++ ['/']
    | _ => out
  | c :: rest =>
    match st with
    | .start =>
      if full ∧ c = '.' then MoldLoop full .dot1 out rest
      else if c ≠ '/' then MoldLoop full .copy (out ++ [c]) rest
      else if out.getLast? = some '/' then MoldLoop full .copy out rest
      else MoldLoop full .start (out ++ ['/']) rest
    | .dot1 =>
      if c = '/' then MoldLoop full .start out rest
      else if c = '.' then MoldLoop full .dot2 out rest
      else MoldLoop full .copy (out ++ ['.', c]) rest
    | .dot2 =>
      if c = '/' then MoldLoop full .start (Mold_File_pop out ++ ['/']) rest
      else MoldLoop full .copy (out ++ ['.', '.', c]) rest
    | .copy =>
      if c ≠ '/' then MoldLoop full .copy (out ++ [c]) rest
      else if out.getLast? = some '/' then MoldLoop full .copy out rest
      else MoldLoop full .start (out ++ ['/']) rest

/-- Mold_File_To_Local with flags REB_FILETOLOCAL_0 (no FULL expansion):
a leading slash is emitted by the prescan, then the segment loop runs. -/
def Mold_File_To_Local_0 (file : List Char) : List Char :=
  match file with
  | [] => MoldLoop false .start [] []
  | c :: rest =>
    if c = '/' then MoldLoop false .start ['/'] rest
    else MoldLoop false .start [] (c :: rest)

/-- Mold_File_To_Local with REB_FILETOLOCAL_FULL: a relative path is
prefixed with the current directory (itself molded without FULL), and the
segment loop performs the `.` / `..` processing. -/
def Mold_File_To_Local_full (cwd file : List Char) : List Char :=
  match file with
  | [] => MoldLoop true .start (Mold_File_To_Local_0 cwd) []
  | c :: rest =>
    if c = '/' then MoldLoop true .start ['/'] rest
    else MoldLoop true .start (Mold_File_To_Local_0 cwd) (c :: rest)

/-- To_Local_Path (mod-filesystem.c): mold with the requested flags; with
REB_FILETOLOCAL_NO_TAIL_SLASH a terminal separator is removed. -/
def To_Local_Path (full noTailSlash : Bool) (cwd file : List Char) :
    List Char :=
  let out := if full then Mold_File_To_Local_full cwd file
             else Mold_File_To_Local_0 file
  if noTailSlash then
    (if out.getLast? = some '/' then out.dropLast else out)
  else out

/-- No two adjacent slashes occur ("no redundant slashes"). -/
def noDoubleSlash : List Char → Bool
  | [] => true
  | [_] => true
  | a :: b :: rest =>
    if a = '/' ∧ b = '/' then false else noDoubleSlash (b :: rest)

/-- Some slash-delimited segment of the path is `.` or `..`. -/
def hasDotSegment (p : List Char) : Bool :=
  (p.splitOn '/').any fun s => s = ['.'] ∨ s = ['.', '.']

theorem noDoubleSlash_tail {c : Char} {rest : List Char}
    (h : noDoubleSlash (c :: rest) = true) : noDoubleSlash rest = true := by
  cases rest with
  | nil => rfl
  | cons b r =>
    unfold noDoubleSlash at h
    split at h
    · exact absurd h (by decide)
    · exact h

theorem noDoubleSlash_head {rest : List Char}
    (h : noDoubleSlash ('/' :: rest) = true) : rest.head? ≠ some '/' := by
  cases rest with
  | nil => simp
  | cons b r =>
    unfold noDoubleSlash at h
    split at h
    · exact absurd h (by decide)
    · rename_i hc
      simp only [List.head?]
      intro he
      injection he with he
      exact hc ⟨rfl, he⟩

theorem MoldLoop_no_full_append :
    ∀ (input : List Char) (st : SegState) (out : List Char),
      st = .start ∨ st = .copy →
      noDoubleSlash input = true →
      (out.getLast? = some '/' → input.head? ≠ some '/') →
      MoldLoop false st out input = out ++ input := by
  intro input
  induction input with
  | nil =>
    intro st out hst _ _
    rcases hst with h | h <;> subst h <;> simp [MoldLoop]
  | cons c rest ih =>
    intro st out hst h1 h2
    have hbody : MoldLoop false st out (c :: rest) =
        (if c ≠ '/' then MoldLoop false .copy (out ++ [c]) rest
         else if out.getLast? = some '/' then MoldLoop false .copy out rest
         else MoldLoop false .start (out ++ ['/']) rest) := by
      rcases hst with h | h <;> subst h
      · show (if (false : Bool) ∧ c = '.' then MoldLoop false .dot1 out rest
              else if c ≠ '/' then MoldLoop false .copy (out ++ [c]) rest
              else if out.getLast? = some '/' then MoldLoop false .copy out rest
              else MoldLoop false .start (out ++ ['/']) rest) = _
        rw [if_neg (by simp)]
      · rfl
    rw [hbody]
    by_cases hc : c = '/'
    · subst hc
      have hlast : ¬ (out.getLast? = some '/') := fun hl => (h2 hl) (by simp)
      rw [if_neg (by simp), if_neg hlast,
        ih .start (out ++ ['/']) (Or.inl rfl) (noDoubleSlash_tail h1)
          (fun _ => noDoubleSlash_head h1)]
      simp
    · rw [if_pos hc,
        ih .copy (out ++ [c]) (Or.inr rfl) (noDoubleSlash_tail h1)
          (fun hl => by
            rw [List.getLast?_concat] at hl
            injection hl with hl
            exact absurd hl hc)]
      simp

theorem To_REBOL_Path_loop_append :
    ∀ (input : List Char) (leadSlash sawColon sawSlash : Bool) (out : List Char),
      ':' ∉ input → '\\' ∉ input → noDoubleSlash input = true →
      (out.getLast? = some '/' → input.head? ≠ some '/') →
      To_REBOL_Path_loop leadSlash sawColon sawSlash out input = .ok (out ++ input) := by
  intro input
  induction input with
  | nil => intro leadSlash sawColon sawSlash out _ _ _ _; simp [To_REBOL_Path_loop]
  | cons c rest ih =>
    intro leadSlash sawColon sawSlash out hcolon hback h1 h2
    have hc1 : c ≠ ':' := fun he => hcolon (he ▸ List.mem_cons_self c rest)
    have hc2 : c ≠ '\\' := fun he => hback (he ▸ List.mem_cons_self c rest)
    have hrest1 : ':' ∉ rest := fun hm => hcolon (List.mem_cons_of_mem c hm)
    have hrest2 : '\\' ∉ rest := fun hm => hback (List.mem_cons_of_mem c hm)
    unfold To_REBOL_Path_loop
    rw [if_neg hc1]
    by_cases hc : c = '/'
    · subst hc
      have hlast : ¬ (out.getLast? = some '/') := fun hl => (h2 hl) (by simp)
      rw [if_pos (Or.inr rfl), if_neg hlast,
        ih leadSlash sawColon true (out ++ ['/']) hrest1 hrest2
          (noDoubleSlash_tail h1) (fun _ => noDoubleSlash_head h1)]
      simp
    · rw [if_neg (by
          intro hor
          rcases hor with h | h
          · exact hc2 h
          · exact hc h),
        ih leadSlash sawColon sawSlash (out ++ [c]) hrest1 hrest2
          (noDoubleSlash_tail h1)
          (fun hl => by
            rw [List.getLast?_concat] at hl
            injection hl with hl
            exact absurd hl hc)]
      simp

/-- C3 (counterexample): the path text `a:b` has no redundant slashes and no
dot segments, yet the round trip through the normalizer does not restore
it: molding to local leaves `a:b`, and To_REBOL_Path treats the colon as
a volume marker and produces `/a/b`. -/
theorem path_roundtrip_counterexample :
    noDoubleSlash ['a', ':', 'b'] = true
      ∧ hasDotSegment ['a', ':', 'b'] = false
      ∧ To_REBOL_Path false (Mold_File_To_Local_0 ['a', ':', 'b'])
          = some ['/', 'a', '/', 'b']
      ∧ (['/', 'a', '/', 'b'] : List Char) ≠ ['a', ':', 'b'] :=
  ⟨by decide, by decide, by decide, by decide⟩

/-- C3 (amended): for every path text with no redundant slashes, no `.` or
`..` segments, and containing neither a colon nor a backslash, converting
to the host's local form (POSIX, without FULL) and back with src-is-dir
false restores the original text. -/
theorem path_roundtrip (p : List Char)
    (h1 : noDoubleSlash p = true) (h2 : hasDotSegment p = false)
    (h3 : ':' ∉ p) (h4 : '\\' ∉ p) :
    To_REBOL_Path false (Mold_File_To_Local_0 p) = some p := by
  have hm : Mold_File_To_Local_0 p = p := by
    cases p with
    | nil => rfl
    | cons c rest =>
      simp only [Mold_File_To_Local_0]
      by_cases hc : c = '/'
      · subst hc
        rw [if_pos rfl,
          MoldLoop_no_full_append rest .start ['/'] (Or.inl rfl)
            (noDoubleSlash_tail h1) (fun _ => noDoubleSlash_head h1)]
        rfl
      · rw [if_neg hc,
          MoldLoop_no_full_append (c :: rest) .start [] (Or.inl rfl) h1
            (by simp)]
        rfl
  rw [hm]
  unfold To_REBOL_Path
  rw [To_REBOL_Path_loop_append p false false false [] h3 h4 h1 (by simp)]
  simp

/-- Witness for the amended C3 theorem at p = "/home/x/a". -/
theorem path_roundtrip_witness :
    To_REBOL_Path false
        (Mold_File_To_Local_0 ['/', 'h', 'o', 'm', 'e', '/', 'x', '/', 'a'])
      = some ['/', 'h', 'o', 'm', 'e', '/', 'x', '/', 'a'] :=
  path_roundtrip ['/', 'h', 'o', 'm', 'e', '/', 'x', '/', 'a']
    (by decide) (by decide) (by decide) (by decide)

/-- C9 (counterexample): the claim says a local text of the form `c:file`
(volume letter and colon, no root slash) is rejected with an error, but
To_REBOL_Path accepts it and produces a converted path. -/
theorem To_REBOL_Path_vol_counterexample :
    ¬ (To_REBOL_Path false ['c', ':', 'f', 'i', 'l', 'e'] = none) := by decide

/-- C9 (amended): To_REBOL_Path does not reject `c:file`; the colon triggers
the one-time restart that seeds a leading slash, and the conversion
yields `/c/file` (the legacy insertion of the current directory is what
is dropped, not the whole form).  A colon raises the error only when it
follows an earlier colon or slash, as in `a/b:c`. -/
theorem To_REBOL_Path_vol_spec :
    To_REBOL_Path false ['c', ':', 'f', 'i', 'l', 'e']
        = some ['/', 'c', '/', 'f', 'i', 'l', 'e']
      ∧ To_REBOL_Path false ['a', '/', 'b', ':', 'c'] = none :=
  ⟨by decide, by decide⟩

/-- C4 (counterexample): the claim quantifies over every FILE! converted by
to-local, but the `.` / `..` segment processing only runs under the FULL
flag: converting %./a without FULL leaves the lone `.` segment in the
output instead of dropping it. -/
theorem Mold_File_To_Local_dot_counterexample :
    To_Local_Path false false [] ['.', '/', 'a'] = ['.', '/', 'a']
      ∧ hasDotSegment (To_Local_Path false false [] ['.', '/', 'a']) = true :=
  ⟨by decide, by decide⟩

/-- C4 (amended): when converting with the FULL option, the input is scanned
segment by segment: a lone `.` segment (`./` or trailing `.`) is dropped
from the output, a `..` segment truncates the last segment already
emitted to the output and re-emits the separator, and a segment that
starts with `.` (or `..`) but has further content is copied to the output
verbatim, as is every other character of a segment; in particular
to-local of %../a with full and current directory %/home/x/y/ gives
"/home/x/a" on POSIX. -/
theorem Mold_File_To_Local_dot_segments :
    (∀ (out rest : List Char),
      MoldLoop true .start out ('.' :: '/' :: rest) = MoldLoop true .start out rest)
    ∧ (∀ out : List Char, MoldLoop true .start out ['.'] = out)
    ∧ (∀ out : List Char,
      MoldLoop true .start out ['.', '.'] = Mold_File_pop out ++ ['/'])
    ∧ (∀ (out rest : List Char),
      MoldLoop true .start out ('.' :: '.' :: '/' :: rest)
        = MoldLoop true .start (Mold_File_pop out ++ ['/']) rest)
    ∧ (∀ (out : List Char) (c : Char) (rest : List Char), c ≠ '/' → c ≠ '.' →
      MoldLoop true .start out ('.' :: c :: rest)
        = MoldLoop true .copy (out ++ ['.', c]) rest)
    ∧ (∀ (out : List Char) (c : Char) (rest : List Char), c ≠ '/' →
      MoldLoop true .start out ('.' :: '.' :: c :: rest)
        = MoldLoop true .copy (out ++ ['.', '.', c]) rest)
    ∧ (∀ (out : List Char) (c : Char) (rest : List Char), c ≠ '/' →
      MoldLoop true .copy out (c :: rest) = MoldLoop true .copy (out ++ [c]) rest)
    ∧ To_Local_Path true false ['/', 'h', 'o', 'm', 'e', '/', 'x', '/', 'y', '/']
        ['.', '.', '/', 'a'] = ['/', 'h', 'o', 'm', 'e', '/', 'x', '/', 'a'] := by
  refine ⟨?_, ?_, ?_, ?_, ?_, ?_, ?_, by decide⟩
  · intro out rest; rfl
  · intro out; rfl
  · intro out; rfl
  · intro out rest; rfl
  · intro out c rest hc hc2; simp [MoldLoop, hc, hc2]
  · intro out c rest hc; simp [MoldLoop, hc]
  · intro out c rest hc; simp [MoldLoop, hc]

/-- Witness for the amended C4 theorem: the `.x`-segment case applied at
out = [], c = 'f', rest = []. -/
theorem Mold_File_To_Local_dot_segments_witness :
    MoldLoop true .start [] ['.', 'f'] = MoldLoop true .copy ([] ++ ['.', 'f']) [] :=
  Mold_File_To_Local_dot_segments.2.2.2.2.1 [] 'f' [] (by decide) (by decide)

/-! # REDUCE (n-reduce.c) -/

/-- Classification of one evaluation step's result inside REDUCE, after the
decay that n-reduce.c performs on unstable packs: a void, a nihil (empty
pack), a null, some other non-storable isotope, a splice (group isotope,
whose items are appended), or an ordinary element (block items modelled
as integers). -/
inductive ReduceStep
  | voidResult
  | nihil
  | nullResult
  | isotope
  | splice (xs : List Int)
  | elem (v : Int)
deriving DecidableEq, Repr

/-- Errors REDUCE can raise while processing results. -/
inductive ReduceError
  | needNonNull
  | badIsotope
deriving DecidableEq, Repr

/-- The process_out block of DECLARE_NATIVE(reduce) (n-reduce.c): void and
nihil results are skipped, null raises `need-non-null`, other isotopes
raise `bad-isotope`, splices push their items, anything else is pushed,
and the loop continues (`k` is the processing of the remaining steps). -/
def Reduce_process_out (r : ReduceStep) (k : Except ReduceError (List Int)) :
    Except ReduceError (List Int) :=
  match r with
  | .voidResult => k
  | .nihil => k
  | .nullResult => .error .needNonNull
  | .isotope => .error .badIsotope
  | .splice xs =>
    match k with
    | .ok l => .ok (xs ++ l)
    | .error e => .error e
  | .elem v =>
    match k with
    | .ok l => .ok (v :: l)
    | .error e => .error e

/-- The step loop of DECLARE_NATIVE(reduce): each evaluation step's result
first passes the reduce_step_result_in_out check — with a /predicate in
effect, a nihil or void result skips to the next step *without* running
the predicate; otherwise the (possibly predicate-transformed) result goes
through process_out. -/
def Reduce_loop (pred : Option (ReduceStep → ReduceStep)) :
    List ReduceStep → Except ReduceError (List Int)
  | [] => .ok []
  | r :: rest =>
    match pred with
    | none => Reduce_process_out r (Reduce_loop pred rest)
    | some f =>
      if r = .nihil ∨ r = .voidResult then Reduce_loop pred rest
      else Reduce_process_out (f r) (Reduce_loop pred rest)

/-- C5: a step whose result is void or nihil contributes no element to the
output block and is never offered to a /predicate (the equation holds
uniformly in the predicate); and whenever some step's result is null,
REDUCE (with the default identity processing) raises `need-non-null`
rather than producing an output block — immediately so when the null is
the current step. -/
theorem Reduce_void_skipped_null_raises :
    (∀ (pred : Option (ReduceStep → ReduceStep)) (rest : List ReduceStep),
      Reduce_loop pred (.voidResult :: rest) = Reduce_loop pred rest
        ∧ Reduce_loop pred (.nihil :: rest) = Reduce_loop pred rest)
    ∧ (∀ steps : List ReduceStep, ReduceStep.nullResult ∈ steps →
      ∀ l : List Int, Reduce_loop none steps ≠ .ok l)
    ∧ (∀ rest : List ReduceStep,
      Reduce_loop none (.nullResult :: rest) = .error .needNonNull) := by
  refine ⟨?_, ?_, fun rest => rfl⟩
  · intro pred rest
    cases pred with
    | none => exact ⟨rfl, rfl⟩
    | some f =>
      constructor
      · show (if ReduceStep.voidResult = .nihil ∨ ReduceStep.voidResult = .voidResult
              then Reduce_loop (some f) rest
              else Reduce_process_out (f .voidResult) (Reduce_loop (some f) rest))
            = Reduce_loop (some f) rest
        rw [if_pos (Or.inr rfl)]
      · show (if ReduceStep.nihil = .nihil ∨ ReduceStep.nihil = .voidResult
              then Reduce_loop (some f) rest
              else Reduce_process_out (f .nihil) (Reduce_loop (some f) rest))
            = Reduce_loop (some f) rest
        rw [if_pos (Or.inl rfl)]
  · intro steps
    induction steps with
    | nil => intro h; exact absurd h (by simp)
    | cons r rest ih =>
      intro hmem l
      by_cases hr : r = ReduceStep.nullResult
      · subst hr
        intro he
        exact absurd he (by simp [Reduce_loop, Reduce_process_out])
      · have hrest : ReduceStep.nullResult ∈ rest := by
          rcases List.mem_cons.mp hmem with h | h
          · exact absurd h.symm hr
          · exact h
        show Reduce_process_out r (Reduce_loop none rest) ≠ .ok l
        cases r with
        | voidResult => exact ih hrest l
        | nihil => exact ih hrest l
        | nullResult => exact absurd rfl hr
        | isotope => simp [Reduce_process_out]
        | splice xs =>
          cases hk : Reduce_loop none rest with
          | ok l2 => exact absurd hk (ih hrest l2)
          | error e => simp [Reduce_process_out, hk]
        | elem v =>
          cases hk : Reduce_loop none rest with
          | ok l2 => exact absurd hk (ih hrest l2)
          | error e => simp [Reduce_process_out, hk]

/-- Witness for C5: a null step among the steps prevents any output block. -/
theorem Reduce_void_skipped_null_raises_witness :
    Reduce_loop none [ReduceStep.elem 3, ReduceStep.nullResult] ≠ .ok [3] :=
  Reduce_void_skipped_null_raises.2.1
    [ReduceStep.elem 3, ReduceStep.nullResult] (by decide) [3]

/-! # Value comparison (f-series.c, Cmp_Value)

The ANY-NUMBER branch of Cmp_Value.  REBDEC is modelled as a rational:
the exact value a C double holds.  The ANY_NUMBER_KIND typeset is
modelled from the spec (the generated typeset header is outside the
provided sources): INTEGER, DECIMAL, PERCENT, MONEY.  Eq_Decimal is also
modelled from the spec (its definition is outside the provided sources)
as equality of the promoted decimals. -/

/-- A cell whose heart is in ANY-NUMBER. -/
inductive NumCell
  | int (i : Int)
  | dec (d : ℚ)
  | percent (d : ℚ)
  | money (m : ℚ)
deriving DecidableEq, Repr

/-- VAL_INT64 applied to a cell: for an INTEGER! heart it is the stored
integer; applied to any other heart it reinterprets the cell's payload
bytes as an int64 — a memory-representation detail, so the reading is a
parameter. -/
def VAL_INT64 (reinterp : NumCell → Int) : NumCell → Int
  | .int i => i
  | c => reinterp c

/-- CT_Integer (t-integer.c): exact signed comparison of the two int64
payloads, 0 / 1 / -1. -/
def CT_Integer (a b : Int) : Int :=
  if a = b then 0 else if a > b then 1 else -1

/-- Modelled from the spec: Eq_Decimal is defined outside the provided
sources; the spec describes the decimal funnel as plain comparison of
the promoted decimals. -/
def Eq_Decimal (a b : ℚ) : Bool := a = b

/-- The chkDecimal tail of Cmp_Value: 0 when Eq_Decimal, else the sign of
the difference. -/
def chkDecimal (d1 d2 : ℚ) : Int :=
  if Eq_Decimal d1 d2 then 0 else if d1 < d2 then -1 else 1

/-- The decimal d2 that Cmp_Value's PERCENT/DECIMAL/MONEY case extracts from
the second operand (deci_to_decimal for money, the int64 cast for an
integer, VAL_DECIMAL otherwise). -/
def Cmp_Value_d2 : NumCell → ℚ
  | .int j => (j : ℚ)
  | .dec d => d
  | .percent d => d
  | .money m => m

/-- The ANY-NUMBER arm of Cmp_Value (f-series.c).  The REB_INTEGER case
diverts into the decimal funnel only when the second operand is
REB_DECIMAL; for any other second kind it returns CT_Integer on the two
VAL_INT64 readings.  The PERCENT/DECIMAL/MONEY cases promote both sides
and fall into chkDecimal. -/
def Cmp_Value_number (reinterp : NumCell → Int) (s t : NumCell) : Int :=
  match s with
  | .int i =>
    match t with
    | .dec d => chkDecimal (i : ℚ) d
    | _ => CT_Integer i (VAL_INT64 reinterp t)
  | .dec d1 => chkDecimal d1 (Cmp_Value_d2 t)
  | .percent d1 => chkDecimal d1 (Cmp_Value_d2 t)
  | .money m1 => chkDecimal m1 (Cmp_Value_d2 t)

/-- The comparison the spec describes (reference definition following the
spec's words): promote both operands to decimal form and compare there. -/
def Cmp_Value_decimal_spec (s t : NumCell) : Int :=
  chkDecimal (Cmp_Value_d2 s) (Cmp_Value_d2 t)

/-- C6: whatever value the int64 reading of a PERCENT cell's payload takes,
Cmp_Value disagrees with the decimal-promotion comparison on some pair of
ANY-NUMBER operands: with s the INTEGER equal to that reading and
t = 50%, Cmp_Value returns 0 (CT_Integer compares the reading with
itself) while the decimal comparison of an integer with 1/2 is never 0.
The reversed operand order (PERCENT first) does follow the decimal
funnel, so the comparison is not even antisymmetric. -/
theorem Cmp_Value_not_decimal_funnel :
    ∀ reinterp : NumCell → Int,
      (Cmp_Value_number reinterp
          (.int (reinterp (.percent (1/2)))) (.percent (1/2)) = 0
        ∧ Cmp_Value_decimal_spec
          (.int (reinterp (.percent (1/2)))) (.percent (1/2)) ≠ 0)
      ∧ Cmp_Value_number reinterp (.percent (1/2)) (.int 1)
          = Cmp_Value_decimal_spec (.percent (1/2)) (.int 1) := by
  intro reinterp
  refine ⟨⟨?_, ?_⟩, rfl⟩
  · show CT_Integer (reinterp (.percent (1/2)))
      (VAL_INT64 reinterp (.percent (1/2))) = 0
    simp [CT_Integer, VAL_INT64]
  · show chkDecimal ((reinterp (.percent (1/2)) : Int) : ℚ) (1/2) ≠ 0
    have hne : ((reinterp (.percent (1/2)) : Int) : ℚ) ≠ 1/2 := by
      intro he
      have h2 : ((2 * reinterp (.percent (1/2)) : Int) : ℚ) = ((1 : Int) : ℚ) := by
        push_cast
        rw [he]
        norm_num
      have h3 : (2 * reinterp (.percent (1/2)) : Int) = 1 := by
        exact_mod_cast h2
      omega
    unfold chkDecimal Eq_Decimal
    rw [if_neg (by simpa using hne)]
    split
    · decide
    · decide

/-- Witness for C6 at the reading that returns 0: comparing INTEGER 0 with
PERCENT 50% yields 0 though the decimal comparison does not. -/
theorem Cmp_Value_not_decimal_funnel_witness :
    Cmp_Value_number (fun _ => 0) (.int 0) (.percent (1/2)) = 0
      ∧ Cmp_Value_decimal_spec (.int 0) (.percent (1/2)) ≠ 0 :=
  (Cmp_Value_not_decimal_funnel (fun _ => 0)).1

/-! # Protect / freeze (n-protect.c)

A small heap of series stubs: each stub carries the info bits Protect_Series
manipulates (FROZEN_SHALLOW, FROZEN_DEEP, PROTECTED, the transient black
mark) and its cells.  Array cells can reference another stub at an index
(the VAL_INDEX of the stored ANY-ARRAY! value) or reference a context
(its varlist stub). -/

/-- A cell stored in an array or context: inert (no series node), an
ANY-ARRAY!/ANY-SERIES! reference with its VAL_INDEX, or an ANY-CONTEXT!
reference. -/
inductive HeapCell
  | inert
  | arrRef (id idx : Nat)
  | ctxRef (id : Nat)
deriving DecidableEq, Repr

/-- A series stub with the flags Protect_Series touches. -/
structure Stub where
  isArray : Bool
  cells : List HeapCell
  frozenShallow : Bool
  frozenDeep : Bool
  protFlag : Bool
  black : Bool
deriving DecidableEq, Repr

/-- The PROT_SET / PROT_DEEP / PROT_FREEZE flag bits (PROT_WORD and
PROT_HIDE do not reach Protect_Series). -/
structure ProtFlags where
  setF : Bool
  deepF : Bool
  freezeF : Bool
deriving DecidableEq, Repr

/-- Update the stub at an id (no-op when out of range). -/
def updStub (heap : List Stub) (id : Nat) (f : Stub → Stub) : List Stub :=
  heap.enum.map fun p => if p.1 = id then f p.2 else p.2

/-- The flag writes of Protect_Series / Protect_Context: under PROT_SET with
PROT_FREEZE, FROZEN_DEEP is set when PROT_DEEP and FROZEN_SHALLOW always;
without PROT_FREEZE the PROTECTED bit is set; without PROT_SET it is
cleared. -/
def Protect_set_flags (flags : ProtFlags) (s : Stub) : Stub :=
  if flags.setF then
    if flags.freezeF then
      { s with frozenDeep := if flags.deepF then true else s.frozenDeep,
               frozenShallow := true }
    else { s with protFlag := true }
  else { s with protFlag := false }

/-- Protect_Value (n-protect.c) together with the Protect_Series and
Protect_Context it dispatches to.  Isotopes and node-free cells are
skipped.  A series value: skip if black; write the flag bits; stop unless
an array under PROT_DEEP; else flip black and recurse over the cells from
the value's VAL_INDEX on.  A context value: same flag writes on the
varlist, but the recursion covers every variable.  Fuel only bounds the
black-guarded recursion depth, which never exceeds the number of stubs
plus one. -/
def Protect_Value_model : Nat → ProtFlags → List Stub → HeapCell → List Stub
  | _, _, heap, .inert => heap
  | 0, _, heap, .arrRef _ _ => heap
  | 0, _, heap, .ctxRef _ => heap
  | fuel + 1, flags, heap, .arrRef id idx =>
    match heap.get? id with
    | none => heap
    | some s =>
      if s.black then heap
      else
        let heap1 := updStub heap id fun _ => Protect_set_flags flags s
        if ¬ s.isArray ∨ ¬ flags.deepF then heap1
        else
          let heap2 := updStub heap1 id fun t => { t with black := true }
          (s.cells.drop idx).foldl
            (fun h c => Protect_Value_model fuel flags h c) heap2
  | fuel + 1, flags, heap, .ctxRef id =>
    match heap.get? id with
    | none => heap
    | some s =>
      if s.black then heap
      else
        let heap1 := updStub heap id fun _ => Protect_set_flags flags s
        if ¬ flags.deepF then heap1
        else
          let heap2 := updStub heap1 id fun t => { t with black := true }
          s.cells.foldl (fun h c => Protect_Value_model fuel flags h c) heap2

/-- Protect_Series entered directly (n-protect.c). -/
def Protect_Series_model (fuel : Nat) (flags : ProtFlags)
    (heap : List Stub) (id idx : Nat) : List Stub :=
  Protect_Value_model fuel flags heap (.arrRef id idx)

/-- Protect_Context entered directly (n-protect.c). -/
def Protect_Context_model (fuel : Nat) (flags : ProtFlags)
    (heap : List Stub) (id : Nat) : List Stub :=
  Protect_Value_model fuel flags heap (.ctxRef id)

/-- Clear every black mark (the Uncolor done after deep walks). -/
def Uncolor_model (heap : List Stub) : List Stub :=
  heap.map fun s => { s with black := false }

/-- PROT_SET | PROT_DEEP | PROT_FREEZE, the flags of a deep freeze. -/
def deepFreezeFlags : ProtFlags := ⟨true, true, true⟩

/-- Modelled from the spec: the body of Freeze_Array_Deep (used by the
FREEZE native via Force_Value_Frozen_Core) is outside the provided
sources; src's Deep_Freeze_Context (sys-context.h) shows the pattern it
shares: protect with PROT_SET | PROT_DEEP | PROT_FREEZE starting at
index 0, then uncolor. -/
def Freeze_Array_Deep_model (heap : List Stub) (id : Nat) : List Stub :=
  Uncolor_model (Protect_Series_model (heap.length + 1) deepFreezeFlags heap id 0)

/-- The stub ids of the arrays directly referenced by a stub's cells. -/
def directSubArrayIds (s : Stub) : List Nat :=
  s.cells.filterMap fun c =>
    match c with
    | .arrRef id _ => some id
    | _ => none

/-- An empty mutable array (id 0 in the example heap). -/
def exX : Stub :=
  { isArray := true, cells := [], frozenShallow := false, frozenDeep := false,
    protFlag := false, black := false }

/-- Array B = [X 1] (id 1): its element 0 references array X. -/
def exB : Stub := { exX with cells := [.arrRef 0 0, .inert] }

/-- Array A = [b] (id 2) where the stored block value references B at
VAL_INDEX 1 (e.g. the value `next [[] 1]`). -/
def exA : Stub := { exX with cells := [.arrRef 1 1] }

/-- The example heap. -/
def exHeap : List Stub := [exX, exB, exA]

/-- C7: deep-freezing A leaves the heap violating the frozen-deep invariant:
B receives FROZEN_DEEP (and FROZEN_SHALLOW), but because Protect_Series
recurses only from the referencing value's index (1), B's element 0 is
never visited and the array X reachable from B keeps no freeze flag at
all — a frozen-deep array with a reachable sub-array that is not even
frozen-shallow. -/
theorem Protect_frozen_deep_invariant_violation :
    ((Freeze_Array_Deep_model exHeap 2).get? 2).map Stub.frozenDeep = some true
      ∧ ((Freeze_Array_Deep_model exHeap 2).get? 1).map Stub.frozenDeep = some true
      ∧ ((Freeze_Array_Deep_model exHeap 2).get? 1).map Stub.frozenShallow = some true
      ∧ ((Freeze_Array_Deep_model exHeap 2).get? 1).map directSubArrayIds = some [0]
      ∧ ((Freeze_Array_Deep_model exHeap 2).get? 0).map Stub.frozenShallow = some false
      ∧ ((Freeze_Array_Deep_model exHeap 2).get? 0).map Stub.frozenDeep = some false
      ∧ ((Freeze_Array_Deep_model exHeap 2).get? 1).map Stub.black = some false := by
  decide

/-! # Action argument fulfillment (c-action.c)

The refinement-reordering portion of Action_Executor: the first
fulfillment pass over the parameter array, with the order-override scan
of the data stack, and the second DOING_PICKUPS pass.  Parameters here
are the plain kinds the claim concerns (normal arguments and
refinements); specialized slots, RETURN, enfix and variadic handling are
orthogonal branches.  Feed values are modelled as integers, consumed one
per evaluated argument. -/

/-- A parameter of an action: its key symbol, whether it is a refinement
(PARAM_FLAG_REFINEMENT), and whether its typeset is nonempty (it takes an
argument). -/
structure ActionParam where
  name : String
  refinement : Bool
  takesArg : Bool
deriving DecidableEq, Repr

/-- A frame argument slot at the end of fulfillment. -/
inductive ArgSlot
  | unfilled
  | nulled
  | blackhole
  | endMarker
  | value (v : Int)
deriving DecidableEq, Repr

/-- The fulfillment error the claim concerns. -/
inductive FulfillError
  | badParameter (name : String)
deriving DecidableEq, Repr

/-- The order-override scan of c-action.c: walk the pushed words from
DS_TOP downward (head of the list = top of stack) and bind the first one
whose symbol matches the parameter's to the parameter's arg-slot offset;
none means no pushed word matches. -/
def bindOrdered (name : String) (slot : Nat) :
    List (String × Option Nat) → Option (List (String × Option Nat))
  | [] => none
  | (s, b) :: rest =>
    if s = name then some ((s, some slot) :: rest)
    else (bindOrdered name slot rest).map fun r => (s, b) :: r

/-- The first fulfillment pass (ST_ACTION_FULFILLING_ARGS) over the
parameters, starting at arg-slot offset `idx`: a parameter matched by a
pushed word is bound on the stack and its slot left for pickups (or set
to blackhole right away when it takes no argument); an unmatched
refinement is nulled; a plain parameter consumes one feed value (the end
of feed fulfills with the END isotope).  Returns the slots, the stack
with its accumulated bindings, and the remaining feed. -/
def fulfillPass1 (idx : Nat) (stack : List (String × Option Nat))
    (feed : List Int) :
    List ActionParam → List ArgSlot × List (String × Option Nat) × List Int
  | [] => ([], stack, feed)
  | p :: ps =>
    match bindOrdered p.name idx stack with
    | some stack1 =>
      if p.takesArg then
        let r := fulfillPass1 (idx + 1) stack1 feed ps
        (.unfilled :: r.1, r.2)
      else
        let r := fulfillPass1 (idx + 1) stack1 feed ps
        (.blackhole :: r.1, r.2)
    | none =>
      if p.refinement then
        let r := fulfillPass1 (idx + 1) stack feed ps
        (.nulled :: r.1, r.2)
      else
        match feed with
        | [] =>
          let r := fulfillPass1 (idx + 1) stack [] ps
          (.endMarker :: r.1, r.2)
        | v :: feed1 =>
          let r := fulfillPass1 (idx + 1) stack feed1 ps
          (.value v :: r.1, r.2)

/-- The DOING_PICKUPS pass: pop pushed words from the top of the stack; a
word the fulfillment loop never bound raises `bad parameter`; a bound
word whose parameter takes an argument consumes the next feed value into
its slot (END isotope at feed end); one that takes none was already
filled with blackhole and is just dropped. -/
def doPickups (params : List ActionParam) (slots : List ArgSlot)
    (feed : List Int) :
    List (String × Option Nat) → Except FulfillError (List ArgSlot)
  | [] => .ok slots
  | (s, none) :: _ => .error (.badParameter s)
  | (s, some i) :: rest =>
    match params.get? i with
    | none => .error (.badParameter s)
    | some p =>
      if p.takesArg then
        match feed with
        | [] => doPickups params (slots.set i .endMarker) [] rest
        | v :: feed1 => doPickups params (slots.set i (.value v)) feed1 rest
      else doPickups params slots feed rest

/-- Argument fulfillment of an action invoked through a path: the
refinement words named by the path arrive pushed on the data stack (head
of the list = top of stack = first-named refinement), the first pass runs
over all parameters, then pickups fill the skipped slots. -/
def Action_fulfill (params : List ActionParam) (pathRefines : List String)
    (feed : List Int) : Except FulfillError (List ArgSlot) :=
  let r := fulfillPass1 0 (pathRefines.map fun s => (s, none)) feed params
  doPickups params r.1 r.2.2 r.2.1

/-- Modelled from the spec: conditional truthiness of the fulfilled slots
(the truthiness table lives outside the provided sources).  The blackhole
marker `#` is a truthy ISSUE, a null slot is falsey, ordinary values
(integers here) are truthy. -/
def ArgSlot_truthy : ArgSlot → Bool
  | .blackhole => true
  | .value _ => true
  | _ => false

/-- The parameters `[a /b [integer!] /c [integer!]]` of scenario S6. -/
def fooParams : List ActionParam :=
  [⟨"a", false, true⟩, ⟨"b", true, true⟩, ⟨"c", true, true⟩]

theorem bindOrdered_symbols :
    ∀ (st : List (String × Option Nat)) (name : String) (i : Nat)
      (st1 : List (String × Option Nat)),
      bindOrdered name i st = some st1 →
      st1.map Prod.fst = st.map Prod.fst := by
  intro st
  induction st with
  | nil => intro name i st1 h; exact absurd h (by simp [bindOrdered])
  | cons e rest ih =>
    intro name i st1 h
    obtain ⟨s, b⟩ := e
    unfold bindOrdered at h
    by_cases hs : s = name
    · rw [if_pos hs] at h
      injection h with h
      subst h
      simp
    · rw [if_neg hs] at h
      cases hb : bindOrdered name i rest with
      | none => rw [hb] at h; exact absurd h (by simp)
      | some r =>
        rw [hb] at h
        simp only [Option.map_some'] at h
        injection h with h
        subst h
        simp [ih name i r hb]

theorem bindOrdered_eq_none_iff :
    ∀ (st : List (String × Option Nat)) (name : String) (i : Nat),
      bindOrdered name i st = none ↔ name ∉ st.map Prod.fst := by
  intro st
  induction st with
  | nil => intro name i; simp [bindOrdered]
  | cons e rest ih =>
    intro name i
    obtain ⟨s, b⟩ := e
    unfold bindOrdered
    by_cases hs : s = name
    · subst hs
      simp
    · rw [if_neg hs, Option.map_eq_none', ih name i]
      simp only [List.map_cons, List.mem_cons]
      constructor
      · intro h hmem
        rcases hmem with h1 | h2
        · exact hs h1.symm
        · exact h h2
      · intro h hmem
        exact h (Or.inr hmem)

theorem bindOrdered_mem :
    ∀ (st : List (String × Option Nat)) (name : String) (i : Nat)
      (st1 : List (String × Option Nat)),
      bindOrdered name i st = some st1 →
      ∀ (s : String) (j : Nat), (s, some j) ∈ st1 →
        (s, some j) ∈ st ∨ (s = name ∧ j = i) := by
  intro st
  induction st with
  | nil => intro name i st1 h; exact absurd h (by simp [bindOrdered])
  | cons e rest ih =>
    intro name i st1 h s j hmem
    obtain ⟨s0, b0⟩ := e
    unfold bindOrdered at h
    by_cases hs : s0 = name
    · rw [if_pos hs] at h
      injection h with h
      subst h
      rcases List.mem_cons.mp hmem with h1 | h1
      · right
        have h2 : s = s0 ∧ (some j : Option Nat) = some i := Prod.mk.inj h1
        refine ⟨h2.1.trans hs, ?_⟩
        injection h2.2
      · exact Or.inl (List.mem_cons_of_mem _ h1)
    · rw [if_neg hs] at h
      cases hb : bindOrdered name i rest with
      | none => rw [hb] at h; exact absurd h (by simp)
      | some r =>
        rw [hb] at h
        simp only [Option.map_some'] at h
        injection h with h
        subst h
        rcases List.mem_cons.mp hmem with h1 | h1
        · exact Or.inl (h1 ▸ List.mem_cons_self _ _)
        · rcases ih name i r hb s j h1 with h2 | h2
          · exact Or.inl (List.mem_cons_of_mem _ h2)
          · exact Or.inr h2

theorem bindOrdered_preserves_unbound :
    ∀ (st : List (String × Option Nat)) (name : String) (i : Nat)
      (st1 : List (String × Option Nat)) (s : String),
      bindOrdered name i st = some st1 → (s, none) ∈ st → s ≠ name →
      (s, none) ∈ st1 := by
  intro st
  induction st with
  | nil => intro name i st1 s h; exact absurd h (by simp [bindOrdered])
  | cons e rest ih =>
    intro name i st1 s h hmem hne
    obtain ⟨s0, b0⟩ := e
    unfold bindOrdered at h
    by_cases hs : s0 = name
    · rw [if_pos hs] at h
      injection h with h
      subst h
      rcases List.mem_cons.mp hmem with h1 | h1
      · have h2 : s = s0 := (Prod.mk.inj h1).1
        exact absurd (h2.trans hs) hne
      · exact List.mem_cons_of_mem _ h1
    · rw [if_neg hs] at h
      cases hb : bindOrdered name i rest with
      | none => rw [hb] at h; exact absurd h (by simp)
      | some r =>
        rw [hb] at h
        simp only [Option.map_some'] at h
        injection h with h
        subst h
        rcases List.mem_cons.mp hmem with h1 | h1
        · exact h1 ▸ List.mem_cons_self _ _
        · exact List.mem_cons_of_mem _ (ih name i r s hb h1 hne)

theorem fulfillPass1_symbols :
    ∀ (ps : List ActionParam) (idx : Nat) (st : List (String × Option Nat))
      (fd : List Int),
      ((fulfillPass1 idx st fd ps).2.1).map Prod.fst = st.map Prod.fst := by
  intro ps
  induction ps with
  | nil => intro idx st fd; rfl
  | cons p ps ih =>
    intro idx st fd
    cases hb : bindOrdered p.name idx st with
    | some st1 =>
      have hsym := bindOrdered_symbols st p.name idx st1 hb
      cases ht : p.takesArg <;>
        simp [fulfillPass1, hb, ht, ih (idx + 1) st1 fd, hsym]
    | none =>
      cases hr : p.refinement with
      | true => simp [fulfillPass1, hb, hr, ih (idx + 1) st fd]
      | false =>
        cases fd with
        | nil => simp [fulfillPass1, hb, hr, ih (idx + 1) st []]
        | cons v fd1 => simp [fulfillPass1, hb, hr, ih (idx + 1) st fd1]

theorem fulfillPass1_unbound :
    ∀ (ps : List ActionParam) (idx : Nat) (st : List (String × Option Nat))
      (fd : List Int) (s : String),
      (s, (none : Option Nat)) ∈ st → (∀ p ∈ ps, p.name ≠ s) →
      (s, (none : Option Nat)) ∈ (fulfillPass1 idx st fd ps).2.1 := by
  intro ps
  induction ps with
  | nil => intro idx st fd s hmem _; simpa [fulfillPass1] using hmem
  | cons p ps ih =>
    intro idx st fd s hmem hnames
    have hne : s ≠ p.name := fun he => hnames p (List.mem_cons_self p ps) he.symm
    have hrest : ∀ q ∈ ps, q.name ≠ s :=
      fun q hq => hnames q (List.mem_cons_of_mem p hq)
    cases hb : bindOrdered p.name idx st with
    | some st1 =>
      have hmem1 : (s, (none : Option Nat)) ∈ st1 :=
        bindOrdered_preserves_unbound st p.name idx st1 s hb hmem hne
      cases ht : p.takesArg <;>
        simpa [fulfillPass1, hb, ht] using ih (idx + 1) st1 fd s hmem1 hrest
    | none =>
      cases hr : p.refinement with
      | true => simpa [fulfillPass1, hb, hr] using ih (idx + 1) st fd s hmem hrest
      | false =>
        cases fd with
        | nil => simpa [fulfillPass1, hb, hr] using ih (idx + 1) st [] s hmem hrest
        | cons v fd1 =>
          simpa [fulfillPass1, hb, hr] using ih (idx + 1) st fd1 s hmem hrest

theorem fulfillPass1_slot_nulled :
    ∀ (ps : List ActionParam) (idx : Nat) (st : List (String × Option Nat))
      (fd : List Int) (k : Nat) (p : ActionParam),
      ps.get? k = some p → p.refinement = true →
      p.name ∉ st.map Prod.fst →
      (fulfillPass1 idx st fd ps).1.get? k = some .nulled := by
  intro ps
  induction ps with
  | nil => intro idx st fd k p hk; exact absurd hk (by simp)
  | cons q ps ih =>
    intro idx st fd k p hk hr hnot
    cases k with
    | zero =>
      injection hk with hk
      subst hk
      have hb : bindOrdered q.name idx st = none :=
        (bindOrdered_eq_none_iff st q.name idx).mpr hnot
      simp [fulfillPass1, hb, hr]
    | succ k =>
      simp only [List.get?_cons_succ] at hk
      cases hb : bindOrdered q.name idx st with
      | some st1 =>
        have hnot1 : p.name ∉ st1.map Prod.fst := by
          rw [bindOrdered_symbols st q.name idx st1 hb]
          exact hnot
        cases ht : q.takesArg <;>
          simpa [fulfillPass1, hb, ht] using ih (idx + 1) st1 fd k p hk hr hnot1
      | none =>
        cases hqr : q.refinement with
        | true => simpa [fulfillPass1, hb, hqr] using ih (idx + 1) st fd k p hk hr hnot
        | false =>
          cases fd with
          | nil =>
            simpa [fulfillPass1, hb, hqr] using ih (idx + 1) st [] k p hk hr hnot
          | cons v fd1 =>
            simpa [fulfillPass1, hb, hqr] using ih (idx + 1) st fd1 k p hk hr hnot

theorem fulfillPass1_slot_blackhole :
    ∀ (ps : List ActionParam) (idx : Nat) (st : List (String × Option Nat))
      (fd : List Int) (k : Nat) (p : ActionParam),
      ps.get? k = some p → p.takesArg = false →
      p.name ∈ st.map Prod.fst →
      (fulfillPass1 idx st fd ps).1.get? k = some .blackhole := by
  intro ps
  induction ps with
  | nil => intro idx st fd k p hk; exact absurd hk (by simp)
  | cons q ps ih =>
    intro idx st fd k p hk ht hmem
    cases k with
    | zero =>
      injection hk with hk
      subst hk
      cases hb : bindOrdered q.name idx st with
      | some st1 => simp [fulfillPass1, hb, ht]
      | none =>
        exact absurd ((bindOrdered_eq_none_iff st q.name idx).mp hb)
          (not_not_intro hmem)
    | succ k =>
      simp only [List.get?_cons_succ] at hk
      cases hb : bindOrdered q.name idx st with
      | some st1 =>
        have hmem1 : p.name ∈ st1.map Prod.fst := by
          rw [bindOrdered_symbols st q.name idx st1 hb]
          exact hmem
        cases hqt : q.takesArg <;>
          simpa [fulfillPass1, hb, hqt] using ih (idx + 1) st1 fd k p hk ht hmem1
      | none =>
        cases hqr : q.refinement with
        | true => simpa [fulfillPass1, hb, hqr] using ih (idx + 1) st fd k p hk ht hmem
        | false =>
          cases fd with
          | nil =>
            simpa [fulfillPass1, hb, hqr] using ih (idx + 1) st [] k p hk ht hmem
          | cons v fd1 =>
            simpa [fulfillPass1, hb, hqr] using ih (idx + 1) st fd1 k p hk ht hmem

/-- Every binding accumulated on the stack points at a parameter slot whose
key symbol is the pushed word's symbol (the invariant the pickups pass
relies on, asserted in c-action.c as KEY_SYMBOL(KEY) equality). -/
def stackConsistent (params : List ActionParam)
    (st : List (String × Option Nat)) : Prop :=
  ∀ (s : String) (j : Nat), (s, some j) ∈ st →
    ∃ q, params.get? j = some q ∧ q.name = s

theorem fulfillPass1_consistent :
    ∀ (ps full : List ActionParam) (idx : Nat)
      (st : List (String × Option Nat)) (fd : List Int),
      (∀ (k : Nat) (q : ActionParam), ps.get? k = some q →
        full.get? (idx + k) = some q) →
      stackConsistent full st →
      stackConsistent full (fulfillPass1 idx st fd ps).2.1 := by
  intro ps
  induction ps with
  | nil => intro full idx st fd _ hst; simpa [fulfillPass1] using hst
  | cons p ps ih =>
    intro full idx st fd hfull hst
    have hfull0 : full.get? idx = some p := by
      have := hfull 0 p rfl
      simpa using this
    have hfull1 : ∀ (k : Nat) (q : ActionParam), ps.get? k = some q →
        full.get? (idx + 1 + k) = some q := by
      intro k q hk
      have := hfull (k + 1) q (by simpa using hk)
      have harith : idx + (k + 1) = idx + 1 + k := by omega
      rw [harith] at this
      exact this
    cases hb : bindOrdered p.name idx st with
    | some st1 =>
      have hst1 : stackConsistent full st1 := by
        intro s j hmem
        rcases bindOrdered_mem st p.name idx st1 hb s j hmem with h | ⟨h1, h2⟩
        · exact hst s j h
        · subst h1; subst h2
          exact ⟨p, hfull0, rfl⟩
      cases ht : p.takesArg <;>
        simpa [fulfillPass1, hb, ht] using ih full (idx + 1) st1 fd hfull1 hst1
    | none =>
      cases hr : p.refinement with
      | true =>
        simpa [fulfillPass1, hb, hr] using ih full (idx + 1) st fd hfull1 hst
      | false =>
        cases fd with
        | nil =>
          simpa [fulfillPass1, hb, hr] using ih full (idx + 1) st [] hfull1 hst
        | cons v fd1 =>
          simpa [fulfillPass1, hb, hr] using ih full (idx + 1) st fd1 hfull1 hst

theorem doPickups_ok_bound :
    ∀ (st : List (String × Option Nat)) (params : List ActionParam)
      (slots : List ArgSlot) (fd : List Int) (out : List ArgSlot),
      doPickups params slots fd st = .ok out →
      ∀ s : String, (s, (none : Option Nat)) ∉ st := by
  intro st
  induction st with
  | nil => intro params slots fd out _ s; simp
  | cons e rest ih =>
    intro params slots fd out hok s hmem
    obtain ⟨s0, b0⟩ := e
    cases b0 with
    | none => exact absurd hok (by simp [doPickups])
    | some i =>
      rcases List.mem_cons.mp hmem with h1 | h1
      · exact Option.noConfusion (Prod.mk.inj h1).2
      · cases hp : params.get? i with
        | none =>
          simp only [doPickups, hp] at hok
          exact Except.noConfusion hok
        | some p =>
          cases ht : p.takesArg with
          | false =>
            simp only [doPickups, hp, ht, Bool.false_eq_true, if_false] at hok
            exact ih params slots fd out hok s h1
          | true =>
            simp only [doPickups, hp, ht, if_true] at hok
            cases fd with
            | nil => exact ih params (slots.set i .endMarker) [] out hok s h1
            | cons v fd1 =>
              exact ih params (slots.set i (.value v)) fd1 out hok s h1

theorem doPickups_get_preserved :
    ∀ (st : List (String × Option Nat)) (params : List ActionParam)
      (slots : List ArgSlot) (fd : List Int) (out : List ArgSlot) (k : Nat),
      doPickups params slots fd st = .ok out →
      (∀ (s : String) (j : Nat), (s, some j) ∈ st → j = k →
        ∃ p, params.get? k = some p ∧ p.takesArg = false) →
      out.get? k = slots.get? k := by
  intro st
  induction st with
  | nil =>
    intro params slots fd out k hok _
    simp only [doPickups] at hok
    injection hok with hok
    rw [hok]
  | cons e rest ih =>
    intro params slots fd out k hok hbind
    obtain ⟨s0, b0⟩ := e
    cases b0 with
    | none => exact absurd hok (by simp [doPickups])
    | some i =>
      have hrest : ∀ (s : String) (j : Nat), (s, some j) ∈ rest → j = k →
          ∃ p, params.get? k = some p ∧ p.takesArg = false :=
        fun s j hm => hbind s j (List.mem_cons_of_mem _ hm)
      cases hp : params.get? i with
      | none =>
        simp only [doPickups, hp] at hok
        exact Except.noConfusion hok
      | some p =>
        cases ht : p.takesArg with
        | false =>
          simp only [doPickups, hp, ht, Bool.false_eq_true, if_false] at hok
          exact ih params slots fd out k hok hrest
        | true =>
          by_cases hik : i = k
          · subst hik
            rcases hbind s0 i (List.mem_cons_self _ _) rfl with ⟨p1, hp1, ht1⟩
            rw [hp] at hp1
            injection hp1 with hp1
            rw [hp1] at ht
            rw [ht] at ht1
            exact absurd ht1 (by decide)
          · simp only [doPickups, hp, ht, if_true] at hok
            cases fd with
            | nil =>
              rw [ih params (slots.set i .endMarker) [] out k hok hrest]
              exact List.get?_set_ne _ _ hik
            | cons v fd1 =>
              rw [ih params (slots.set i (.value v)) fd1 out k hok hrest]
              exact List.get?_set_ne _ _ hik

/-- C1: invoking an action through a path with refinements, the pushed
refinement words are filled by the second pickups pass, and: a pushed
word matching no parameter makes fulfillment raise `bad parameter`
(never produce a frame); an optional refinement not named at the callsite
ends fulfillment null; a named refinement whose parameter takes no
argument ends fulfillment holding the blackhole `#`, which is truthy
(null is falsey); and on [a /b [integer!] /c [integer!]], foo:c:b
10 20 30 gives a = 10, b = 30, c = 20, while foo:b 10 20 gives a = 10,
b = 20, c = null. -/
theorem Action_fulfill_refinement_spec :
    (∀ (params : List ActionParam) (refs : List String) (feed : List Int)
        (s : String), s ∈ refs → (∀ p ∈ params, p.name ≠ s) →
      ∀ out : List ArgSlot, Action_fulfill params refs feed ≠ .ok out)
    ∧ (∀ (params : List ActionParam) (refs : List String) (feed : List Int)
        (k : Nat) (p : ActionParam) (out : List ArgSlot),
      Action_fulfill params refs feed = .ok out →
      params.get? k = some p → p.refinement = true → p.name ∉ refs →
      out.get? k = some .nulled)
    ∧ (∀ (params : List ActionParam) (refs : List String) (feed : List Int)
        (k : Nat) (p : ActionParam) (out : List ArgSlot),
      Action_fulfill params refs feed = .ok out →
      params.get? k = some p → p.takesArg = false → p.name ∈ refs →
      out.get? k = some .blackhole)
    ∧ ArgSlot_truthy .blackhole = true
    ∧ ArgSlot_truthy .nulled = false
    ∧ Action_fulfill fooParams ["c", "b"] [10, 20, 30]
        = .ok [.value 10, .value 30, .value 20]
    ∧ Action_fulfill fooParams ["b"] [10, 20]
        = .ok [.value 10, .value 20, .nulled] := by
  refine ⟨?_, ?_, ?_, rfl, rfl, rfl, rfl⟩
  · intro params refs feed s hs hnames out hok
    simp only [Action_fulfill] at hok
    have hmem0 : (s, (none : Option Nat)) ∈
        refs.map fun a => ((a, none) : String × Option Nat) :=
      List.mem_map.mpr ⟨s, hs, rfl⟩
    have hmem1 := fulfillPass1_unbound params 0
      (refs.map fun a => ((a, none) : String × Option Nat)) feed s hmem0 hnames
    exact doPickups_ok_bound _ params _ _ out hok s hmem1
  · intro params refs feed k p out hok hk hr hnot
    simp only [Action_fulfill] at hok
    have hsym0 : (refs.map fun a => ((a, none) : String × Option Nat)).map
        Prod.fst = refs := by
      rw [List.map_map]
      exact List.map_id refs
    have hnot0 : p.name ∉
        ((refs.map fun a => ((a, none) : String × Option Nat)).map Prod.fst) := by
      rw [hsym0]; exact hnot
    have hslot := fulfillPass1_slot_nulled params 0
      (refs.map fun a => ((a, none) : String × Option Nat)) feed k p hk hr hnot0
    have hcons : stackConsistent params
        ((fulfillPass1 0 (refs.map fun a => ((a, none) : String × Option Nat))
          feed params).2.1) := by
      refine fulfillPass1_consistent params params 0 _ feed ?_ ?_
      · intro k1 q hkq; simpa using hkq
      · intro s j hmem
        rcases List.mem_map.mp hmem with ⟨a, _, hae⟩
        exact Option.noConfusion (Prod.mk.inj hae).2
    have hpre : ∀ (s : String) (j : Nat),
        (s, some j) ∈ (fulfillPass1 0
          (refs.map fun a => ((a, none) : String × Option Nat))
          feed params).2.1 → j = k →
        ∃ q, params.get? k = some q ∧ q.takesArg = false := by
      intro s j hmem hjk
      subst hjk
      have hs : s ∈ refs := by
        have hin : s ∈ ((fulfillPass1 0
            (refs.map fun a => ((a, none) : String × Option Nat))
            feed params).2.1).map Prod.fst :=
          List.mem_map.mpr ⟨(s, some j), hmem, rfl⟩
        rw [fulfillPass1_symbols params 0 _ feed, hsym0] at hin
        exact hin
      rcases hcons s j hmem with ⟨q, hq, hqname⟩
      rw [hk] at hq
      injection hq with hq
      subst hq
      exact absurd (by rw [hqname]; exact hs) hnot
    have hpres := doPickups_get_preserved _ params _ _ out k hok hpre
    rw [hpres, hslot]
  · intro params refs feed k p out hok hk ht hmem
    simp only [Action_fulfill] at hok
    have hsym0 : (refs.map fun a => ((a, none) : String × Option Nat)).map
        Prod.fst = refs := by
      rw [List.map_map]
      exact List.map_id refs
    have hmem0 : p.name ∈
        ((refs.map fun a => ((a, none) : String × Option Nat)).map Prod.fst) := by
      rw [hsym0]; exact hmem
    have hslot := fulfillPass1_slot_blackhole params 0
      (refs.map fun a => ((a, none) : String × Option Nat)) feed k p hk ht hmem0
    have hcons : stackConsistent params
        ((fulfillPass1 0 (refs.map fun a => ((a, none) : String × Option Nat))
          feed params).2.1) := by
      refine fulfillPass1_consistent params params 0 _ feed ?_ ?_
      · intro k1 q hkq; simpa using hkq
      · intro s j hmem1
        rcases List.mem_map.mp hmem1 with ⟨a, _, hae⟩
        exact Option.noConfusion (Prod.mk.inj hae).2
    have hpre : ∀ (s : String) (j : Nat),
        (s, some j) ∈ (fulfillPass1 0
          (refs.map fun a => ((a, none) : String × Option Nat))
          feed params).2.1 → j = k →
        ∃ q, params.get? k = some q ∧ q.takesArg = false := by
      intro s j hmem1 hjk
      subst hjk
      rcases hcons s j hmem1 with ⟨q, hq, _⟩
      rw [hk] at hq
      injection hq with hq
      subst hq
      exact ⟨p, hk, ht⟩
    have hpres := doPickups_get_preserved _ params _ _ out k hok hpre
    rw [hpres, hslot]

/-- Witness for C1: a refinement word matching no parameter of foo makes
fulfillment fail. -/
theorem Action_fulfill_refinement_spec_witness :
    Action_fulfill fooParams ["d"] [10]
      ≠ .ok [.value 10, .nulled, .nulled] :=
  Action_fulfill_refinement_spec.1 fooParams ["d"] [10] "d"
    (by decide) (by decide) [.value 10, .nulled, .nulled]
